import Mathlib

/-!
Verification development for the CNT4007 peer-to-peer file-sharing project.

The definitions below are a shallow embedding of `file_sharing/peer.py` and
`file_sharing/protocol.py`: pure computations are translated directly, file
and socket I/O is modelled by explicit byte lists plus boolean success
parameters, and the two periodic scheduler bodies are modelled as one-cycle
state transformers on a snapshot of the session registry.  Bytes are natural
numbers below 256, bitfields are lists of naturals (the Python code stores
literal `0` / `1` ints), and Python `random.choice` / `random.shuffle` are
modelled by an index parameter respectively a permutation parameter.
-/

namespace P2P

/-! ## FileManager (peer.py lines 12-111) -/

/-- State of `FileManager`: sizes from `Common.cfg`, the local bitfield
(`self.bitfield`, a list of 0/1 ints), the outstanding-request set
(`self.requested_pieces`, a Python set modelled as a duplicate-free list) and
the backing file contents (a byte list). -/
structure FileManager where
  file_size : Nat
  piece_size : Nat
  bitfield : List Nat
  requested_pieces : List Nat
  file : List Nat
deriving DecidableEq, Repr

/-- `math.ceil(file_size / piece_size)` from `FileManager.__init__`. -/
def FileManager.num_pieces (fm : FileManager) : Nat :=
  (fm.file_size + fm.piece_size - 1) / fm.piece_size

/-- `FileManager.has_piece`: `self.bitfield[index] == 1`. -/
def FileManager.has_piece (fm : FileManager) (index : Nat) : Bool :=
  fm.bitfield.getD index 0 == 1

/-- `FileManager.has_complete_file`: `all(self.bitfield)` (Python truthiness:
every entry is nonzero). -/
def FileManager.has_complete_file (fm : FileManager) : Bool :=
  fm.bitfield.all (fun x => !(x == 0))

/-- One iteration of the packing loop in `FileManager.get_bitfield_bytes`:
for index `i`, if `bitfield[i] == 1` then
`bf_bytes[i // 8] |= 1 << (7 - i % 8)`. -/
def encStep (bitfield : List Nat) (acc : List Nat) (i : Nat) : List Nat :=
  if bitfield.getD i 0 = 1 then
    acc.set (i / 8) ((acc.getD (i / 8) 0) ||| (1 <<< (7 - i % 8)))
  else acc

/-- `FileManager.get_bitfield_bytes`: a zeroed bytearray of
`math.ceil(num_pieces / 8)` bytes, filled by the packing loop over
`range(num_pieces)`.  Here `bitfield` carries its own length, so
`num_pieces = bitfield.length`. -/
def get_bitfield_bytes (bitfield : List Nat) : List Nat :=
  (List.range bitfield.length).foldl (encStep bitfield)
    (List.replicate ((bitfield.length + 7) / 8) 0)

/-- One iteration of the parsing loop in
`FileManager.update_bitfield_from_bytes`: for index `i`, when
`i // 8 < len(bf_data)` and bit `7 - i % 8` of `bf_data[i // 8]` is set,
write `neighbor_bitfield[i] = 1`. -/
def decStep (bf_data : List Nat) (acc : List Nat) (i : Nat) : List Nat :=
  if i / 8 < bf_data.length then
    if (bf_data.getD (i / 8) 0 >>> (7 - i % 8)) &&& 1 = 1 then acc.set i 1
    else acc
  else acc

/-- `FileManager.update_bitfield_from_bytes`: starts from
`[0] * num_pieces` and runs the parsing loop over `range(num_pieces)`. -/
def update_bitfield_from_bytes (bf_data : List Nat) (num_pieces : Nat) : List Nat :=
  (List.range num_pieces).foldl (decStep bf_data) (List.replicate num_pieces 0)

/-- Semantics of a POSIX `seek(offset)` followed by `write(data)` on a file
opened in `r+b` mode: bytes before `offset` are kept, a gap past the end is
zero-filled, `data` overwrites `data.length` bytes, and the tail of the old
contents past the written range is kept. -/
def writeAt (file : List Nat) (offset : Nat) (data : List Nat) : List Nat :=
  file.take offset ++ List.replicate (offset - file.length) 0 ++ data ++
    file.drop (offset + data.length)

/-- `FileManager.read_piece`: `None` when the piece is not held, otherwise
the `min(piece_size, file_size - offset)` bytes starting at
`offset = index * piece_size`; the `ioOk` flag models the `IOError` branch
(which also returns `None`). -/
def read_piece (fm : FileManager) (index : Nat) (ioOk : Bool) : Option (List Nat) :=
  if !(fm.has_piece index) then none
  else
    let offset := index * fm.piece_size
    let current_piece_size := min fm.piece_size (fm.file_size - offset)
    if ioOk then some ((fm.file.drop offset).take current_piece_size) else none

/-- `FileManager.write_piece`: on success, seek to `index * piece_size`,
write `data`, set `bitfield[index] = 1` and discard `index` from
`requested_pieces`; on an `IOError` (modelled by `ioOk = false`) the state is
unchanged and `False` is returned. -/
def write_piece (fm : FileManager) (index : Nat) (data : List Nat) (ioOk : Bool) :
    FileManager × Bool :=
  if ioOk then
    ({ fm with
        file := writeAt fm.file (index * fm.piece_size) data
        bitfield := fm.bitfield.set index 1
        requested_pieces := fm.requested_pieces.erase index }, true)
  else (fm, false)

/-! ## Protocol constants (protocol.py) -/

def MSG_CHOKE : Nat := 0
def MSG_UNCHOKE : Nat := 1
def MSG_INTERESTED : Nat := 2
def MSG_NOT_INTERESTED : Nat := 3
def MSG_HAVE : Nat := 4
def MSG_BITFIELD : Nat := 5
def MSG_REQUEST : Nat := 6
def MSG_PIECE : Nat := 7

/-! ## Neighbor session state (PeerConnection, peer.py lines 113-150) -/

/-- State of one `PeerConnection`: the four protocol flags, the observed
neighbor bitfield, the per-interval byte counter, the dynamically attached
`is_optimistic` attribute (`getattr` default `False`), and whether the
owned socket is still open (`close` clears it). -/
structure PConn where
  neighbor_id : Nat
  am_choking : Bool := true
  am_interested : Bool := false
  peer_choking : Bool := true
  peer_interested : Bool := false
  neighbor_bitfield : List Nat := []
  downloaded_bytes_interval : Nat := 0
  is_optimistic : Bool := false
  socketOpen : Bool := true
deriving DecidableEq, Repr

/-- Dummy session used as the (never hit) default of `List.getD` when
modelling `random.choice` on a non-empty candidate list. -/
def dummyConn : PConn := { neighbor_id := 0 }

/-- Big-endian 4-byte packing, `struct.pack` format `!I`; `struct.error`
(value out of range) is modelled by `none`. -/
def pack_u32 (x : Nat) : Option (List Nat) :=
  if x < 2 ^ 32 then some [x / 2 ^ 24 % 256, x / 2 ^ 16 % 256, x / 2 ^ 8 % 256, x % 256]
  else none

/-- One-byte packing, `struct.pack` format `B`. -/
def pack_u8 (x : Nat) : Option (List Nat) :=
  if x < 256 then some [x]
  else none

/-- `PeerConnection.send_message`: builds the header
`struct.pack` with format `!IB` applied to `1 + len(payload)` and `msg_type`
(outside any `try` block, so a packing failure raises, modelled as
`Except.error`), then attempts `socket.sendall` inside `try/except`:
a transport failure (modelled by `sendOk = false`) is swallowed and the
frame is simply not delivered.  The session state is returned so that the
theorems can state that it is never modified; the second component is the
frame that reached the wire, if any. -/
def send_message (conn : PConn) (msg_type : Nat) (payload : List Nat)
    (sendOk : Bool) : Except String (PConn × Option (List Nat)) :=
  let packet_len := 1 + payload.length
  match pack_u32 packet_len, pack_u8 msg_type with
  | some lenBytes, some typeByte =>
      .ok (conn, if sendOk then some (lenBytes ++ typeByte ++ payload) else none)
  | _, _ => .error "struct error: argument out of range"

/-! ## Message processing (Peer.process_message, peer.py lines 315-404) -/

/-- The `MSG_HAVE` branch of `Peer.process_message`: set
`neighbor_bitfield[piece_index] = 1`; then, if the local store lacks the
piece, send INTERESTED and set `am_interested = True` (the current value of
`am_interested` is NOT consulted).  Returns the updated session and the
list of message types sent. -/
def process_have (self_bitfield : List Nat) (conn : PConn) (piece_index : Nat) :
    PConn × List Nat :=
  let conn1 := { conn with neighbor_bitfield := conn.neighbor_bitfield.set piece_index 1 }
  if !(self_bitfield.getD piece_index 0 == 1) then
    ({ conn1 with am_interested := true }, [MSG_INTERESTED])
  else (conn1, [])

/-- The `MSG_BITFIELD` branch of `Peer.process_message`: the observed
neighbor bitfield is REPLACED by the decoded payload, then interest is
recomputed by scanning for a piece the neighbor has and the local store
lacks, and INTERESTED or NOT_INTERESTED is sent accordingly. -/
def process_bitfield (self_bitfield : List Nat) (num_pieces : Nat) (conn : PConn)
    (payload : List Nat) : PConn × List Nat :=
  let nb := update_bitfield_from_bytes payload num_pieces
  let conn1 := { conn with neighbor_bitfield := nb }
  let interested := (List.range nb.length).any
    (fun i => nb.getD i 0 == 1 && !(self_bitfield.getD i 0 == 1))
  if interested then ({ conn1 with am_interested := true }, [MSG_INTERESTED])
  else ({ conn1 with am_interested := false }, [MSG_NOT_INTERESTED])

/-- `Peer.request_piece`: collect the indices the neighbor has, the local
store lacks and that are not already outstanding; if any exist, pick one
(`random.choice`, modelled by the index parameter `r` reduced mod the
candidate count), add it to `requested_pieces` and send REQUEST.  Returns
the updated file manager and the requested index, if any. -/
def request_piece (fm : FileManager) (neighbor_bitfield : List Nat) (r : Nat) :
    FileManager × Option Nat :=
  let available_pieces := (List.range neighbor_bitfield.length).filter
    (fun i => neighbor_bitfield.getD i 0 == 1 && !(fm.has_piece i)
      && !(fm.requested_pieces.contains i))
  if available_pieces.isEmpty then (fm, none)
  else
    let idx := available_pieces.getD (r % available_pieces.length) 0
    ({ fm with requested_pieces := fm.requested_pieces.insert idx }, some idx)

/-! ## Unchoke scheduler (Peer.choking_timer and
Peer.optimistic_unchoking_timer, peer.py lines 434-504) -/

/-- Stable descending insertion used to model one element of Python's
`list.sort(key=lambda x: x.downloaded_bytes_interval, reverse=True)`:
the new element is placed before the first strictly smaller key, hence
after every element with an equal key. -/
def insertDesc (c : PConn) : List PConn → List PConn
  | [] => [c]
  | d :: rest =>
      if d.downloaded_bytes_interval < c.downloaded_bytes_interval then c :: d :: rest
      else d :: insertDesc c rest

/-- Model of `interested_neighbors.sort(key=lambda x:
x.downloaded_bytes_interval, reverse=True)`: Python's sort is documented to
be stable, and with `reverse=True` it produces a descending order in which
elements with equal keys keep their original relative order. -/
def sortByRateDesc (l : List PConn) : List PConn :=
  l.foldl (fun acc c => insertDesc c acc) []

/-- The preferred-neighbor computation inside `Peer.choking_timer`: when the
local file is complete, `random.shuffle` the interested snapshot (the shuffle
result is passed in as `shuffled`) and take the first `k`; otherwise sort
descending by `downloaded_bytes_interval` (stable, no randomness) and take
the first `k`. -/
def select_preferred (has_all : Bool) (shuffled : List PConn)
    (interested : List PConn) (k : Nat) : List PConn :=
  if has_all then shuffled.take k else (sortByRateDesc interested).take k

/-- One iteration of `Peer.choking_timer` on a snapshot `st` of the session
registry: filter the interested sessions; if none, do nothing; otherwise
compute the preferred set, unchoke its members, choke every other session
that is unchoked and not marked optimistic, and reset every session's
interval counter.  Membership `c in preferred` is Python object identity,
modelled by `neighbor_id` (registry keys are unique). -/
def choking_cycle (k : Nat) (has_all : Bool) (sh : List PConn → List PConn)
    (st : List PConn) : List PConn :=
  let interested_neighbors := st.filter (fun c => c.peer_interested)
  if interested_neighbors.isEmpty then st
  else
    let preferred := select_preferred has_all (sh interested_neighbors)
      interested_neighbors k
    let preferred_ids := preferred.map (fun c => c.neighbor_id)
    st.map (fun c =>
      if preferred_ids.contains c.neighbor_id then
        { c with am_choking := false, downloaded_bytes_interval := 0 }
      else if !c.am_choking && !c.is_optimistic then
        { c with am_choking := true, downloaded_bytes_interval := 0 }
      else { c with downloaded_bytes_interval := 0 })

/-- One iteration of `Peer.optimistic_unchoking_timer` on a snapshot `st`:
candidates are the choked interested sessions; if any, choose one
(`random.choice` modelled by index `r`), mark it optimistic and unchoke it,
and clear `is_optimistic` on every other session (which is NOT re-choked). -/
def optimistic_cycle (r : Nat) (st : List PConn) : List PConn :=
  let candidates := st.filter (fun c => c.am_choking && c.peer_interested)
  if candidates.isEmpty then st
  else
    let chosen := candidates.getD (r % candidates.length) dummyConn
    st.map (fun c =>
      if c.neighbor_id == chosen.neighbor_id then
        { c with is_optimistic := true, am_choking := false }
      else { c with is_optimistic := false })

/-- Number of sessions currently unchoked by us. -/
def countUnchoked (st : List PConn) : Nat :=
  st.countP (fun c => !c.am_choking)

/-- Number of sessions currently carrying the optimistic mark. -/
def countOptimistic (st : List PConn) : Nat :=
  st.countP (fun c => c.is_optimistic)

/-! ## Receive-loop error handling (Peer.message_handler, peer.py lines
295-313) and the session registry -/

/-- The peer-level state the registry claims are about: the cooperative
`running` flag and the session registry (`self.connections`), a map from
neighbor id to session modelled as a list of sessions with distinct ids. -/
structure PeerSt where
  running : Bool
  conns : List PConn
deriving DecidableEq, Repr

/-- Effect of `Peer.message_handler` when the receive loop dies with a
transport error: the exception is swallowed (`except ... pass`) and the
`finally` block runs `conn.close()`, which only closes the socket.  Nothing
is ever removed from `self.connections`, and neither `self.running` nor any
other session is touched. -/
def message_handler_on_error (st : PeerSt) (nid : Nat) : PeerSt :=
  { st with conns := st.conns.map (fun c =>
      if c.neighbor_id == nid then { c with socketOpen := false } else c) }

/-! ## Termination detector (Peer.termination_check_loop, peer.py lines
506-535) -/

/-- Observable events of one iteration of `Peer.termination_check_loop`,
used to state which checks happen while the registry lock is held. -/
inductive TEvent where
  | checkHasAll : Bool → TEvent
  | acquireLock : TEvent
  | checkNeighborsDone : Bool → TEvent
  | releaseLock : TEvent
  | checkCount : Bool → TEvent
  | exitProcess : TEvent
deriving DecidableEq, Repr

/-- Python `sum` over a bitfield list. -/
def sumList (l : List Nat) : Nat := l.foldl (· + ·) 0

/-- The loop `for c in self.connections.values(): if
sum(c.neighbor_bitfield) < num_pieces: all_neighbors_done = False; break`. -/
def all_neighbors_done (conns : List PConn) (num_pieces : Nat) : Bool :=
  conns.all (fun c => !(decide (sumList c.neighbor_bitfield < num_pieces)))

/-- One 2-second poll of `Peer.termination_check_loop` as an event trace:
check local completion; if incomplete, continue.  Otherwise take the
registry lock, scan the neighbor bitfields, release the lock, and only
then (outside the `with` block) compare the session count with the
membership size minus one; exit when both hold. -/
def termination_poll (bitfield : List Nat) (conns : List PConn)
    (num_pieces num_peers : Nat) : List TEvent :=
  let hasAll := bitfield.all (fun x => !(x == 0))
  if !hasAll then [TEvent.checkHasAll false]
  else
    let done := all_neighbors_done conns num_pieces
    [TEvent.checkHasAll true, TEvent.acquireLock, TEvent.checkNeighborsDone done,
      TEvent.releaseLock] ++
    (if done then
      let cntOk := conns.length == num_peers - 1
      [TEvent.checkCount cntOk] ++ (if cntOk then [TEvent.exitProcess] else [])
    else [])

/-- Recognizer for the lock-acquisition event. -/
def isAcquire : TEvent → Bool
  | TEvent.acquireLock => true
  | _ => false

/-- Recognizer for the lock-release event. -/
def isRelease : TEvent → Bool
  | TEvent.releaseLock => true
  | _ => false

/-- The sub-trace of events that happen while the registry lock is held:
everything strictly between `acquireLock` and `releaseLock`. -/
def between_lock (evts : List TEvent) : List TEvent :=
  ((evts.dropWhile (fun e => !(isAcquire e))).drop 1).takeWhile
    (fun e => !(isRelease e))

/-! ## Piece-store life cycle (claim C4) -/

/-- Initial `FileManager` state from `FileManager.__init__`: the bitfield is
all ones when the peer starts with the file and all zeros otherwise, no
requests are outstanding, and a non-seeder's backing file starts empty. -/
def initFM (F S : Nat) (has_file : Bool) (contents : List Nat) : FileManager :=
  { file_size := F
    piece_size := S
    bitfield := List.replicate ((F + S - 1) / S) (if has_file then 1 else 0)
    requested_pieces := []
    file := if has_file then contents else [] }

/-- The operations of the program that touch the bitfield or the
outstanding-request set: `Peer.request_piece` (any neighbor bitfield, any
random choice) and `FileManager.write_piece` (any index, any data, success
or I/O failure). -/
inductive FMStep : FileManager → FileManager → Prop where
  | request (fm : FileManager) (nb : List Nat) (r : Nat) :
      FMStep fm (request_piece fm nb r).1
  | write (fm : FileManager) (i : Nat) (data : List Nat) (ok : Bool) :
      FMStep fm (write_piece fm i data ok).1

/-- Reachability of a `FileManager` state from startup. -/
def FMReachable (F S : Nat) (has_file : Bool) (contents : List Nat)
    (fm : FileManager) : Prop :=
  Relation.ReflTransGen FMStep (initFM F S has_file contents) fm

/-! ## Spec-side definition for the preferred-neighbor refinement (claim C2) -/

/-- Descending order on sessions by `downloaded_bytes_interval`. -/
def SortedDesc (l : List PConn) : Prop :=
  List.Sorted (fun a b => b.downloaded_bytes_interval ≤ a.downloaded_bytes_interval) l

/-- Follows the spec's words, for comparison with `select_preferred`:
"sort descending by `interval_download_bytes`, breaking ties uniformly at
random, and take the first k".  A result is a possible outcome exactly when
it is the first `k` elements of some descending-sorted permutation of the
snapshot; under uniformly random tie-breaking every such outcome has
positive probability. -/
def spec_preferred_possible (interested : List PConn) (k : Nat)
    (result : List PConn) : Prop :=
  ∃ p, p.Perm interested ∧ SortedDesc p ∧ result = p.take k

/-! ## Concrete states used by witnesses and counterexamples -/

/-- Interested, choked session with id 1 and an empty interval counter. -/
def connA : PConn := { neighbor_id := 1, peer_interested := true }

/-- Interested, choked session with id 2 that delivered 5 bytes this
interval. -/
def connB1 : PConn :=
  { neighbor_id := 2, peer_interested := true, downloaded_bytes_interval := 5 }

/-- Interested, choked session with id 3. -/
def connC : PConn := { neighbor_id := 3, peer_interested := true }

/-- A three-session registry snapshot. -/
def st0C1 : List PConn := [connA, connB1, connC]

/-- The snapshot after one optimistic-unchoke cycle (choosing id 1) and one
preferred-neighbor cycle with k = 1 (selecting id 2 on download rate). -/
def st2C1 : List PConn := choking_cycle 1 false (fun l => l) (optimistic_cycle 0 st0C1)

/-- Interested session with id 2 and 500 interval bytes (tied with id 3). -/
def connY : PConn :=
  { neighbor_id := 2, peer_interested := true, downloaded_bytes_interval := 500 }

/-- Interested session with id 3 and 500 interval bytes (tied with id 2). -/
def connZ : PConn :=
  { neighbor_id := 3, peer_interested := true, downloaded_bytes_interval := 500 }

/-- Session with id 4 that is already interested in its neighbor. -/
def connI : PConn := { neighbor_id := 4, am_interested := true }

/-- Session with id 5 whose observed neighbor bitmap has bit 0 set. -/
def connNB : PConn := { neighbor_id := 5, neighbor_bitfield := [1] }

/-- Peer state holding one registered session with id 7. -/
def st7 : PeerSt := { running := true, conns := [{ neighbor_id := 7 }] }

/-- Session with id 8 whose observed neighbor bitmap is complete for a
one-piece file. -/
def connD : PConn := { neighbor_id := 8, neighbor_bitfield := [1] }

/-- Seeder file manager for a 10-byte file with 4-byte pieces. -/
def fmC8 : FileManager :=
  { file_size := 10, piece_size := 4, bitfield := [1, 1, 1],
    requested_pieces := [], file := [0, 1, 2, 3, 4, 5, 6, 7, 8, 9] }

/-- Two-piece file manager holding only piece 0. -/
def fmC3 : FileManager :=
  { file_size := 2, piece_size := 1, bitfield := [1, 0],
    requested_pieces := [], file := [7, 7] }

/-! ## Helper lemmas on lists and bits -/

theorem getD_set_eq_ite (l : List Nat) (k j v d : Nat) :
    (l.set k v).getD j d = if j = k ∧ j < l.length then v else l.getD j d := by
  rw [List.getD_eq_getElem?_getD, List.getD_eq_getElem?_getD, List.getElem?_set]
  by_cases hkj : k = j
  · subst hkj
    by_cases hk : k < l.length
    · simp [hk]
    · simp [hk, List.getElem?_eq_none (Nat.le_of_not_lt hk)]
  · have hjk : ¬(j = k) := fun h => hkj h.symm
    simp [hkj, hjk]

theorem getD_replicate_zero (n j : Nat) : (List.replicate n (0 : Nat)).getD j 0 = 0 := by
  rw [List.getD_eq_getElem?_getD, List.getElem?_replicate]
  by_cases h : j < n <;> simp [h]

theorem countP_or_le (p q : α → Bool) (l : List α) :
    l.countP (fun a => p a || q a) ≤ l.countP p + l.countP q := by
  induction l with
  | nil => simp
  | cons a t ih =>
    rw [List.countP_cons, List.countP_cons, List.countP_cons]
    cases hp : p a <;> cases hq : q a <;> simp [hp, hq] <;> omega

theorem countP_mem_le_length (ids pids : List Nat) (hnd : ids.Nodup) :
    ids.countP (fun i => pids.contains i) ≤ pids.length := by
  induction ids generalizing pids with
  | nil => simp
  | cons a t ih =>
    rw [List.countP_cons]
    rcases List.nodup_cons.mp hnd with ⟨ha, ht⟩
    by_cases hmem : a ∈ pids
    · have h1 : t.countP (fun i => pids.contains i) =
          t.countP (fun i => (pids.erase a).contains i) := by
        apply List.countP_congr
        intro x hx
        have hxa : x ≠ a := fun h => ha (h ▸ hx)
        by_cases hx2 : x ∈ pids
        · have e1 : pids.contains x = true := List.elem_iff.mpr hx2
          have e2 : (pids.erase a).contains x = true :=
            List.elem_iff.mpr ((List.mem_erase_of_ne hxa).mpr hx2)
          rw [e1, e2]
        · have e1 : pids.contains x = false := by
            rw [Bool.eq_false_iff]
            intro h
            exact hx2 (List.elem_iff.mp h)
          have e2 : (pids.erase a).contains x = false := by
            rw [Bool.eq_false_iff]
            intro h
            exact hx2 ((List.mem_erase_of_ne hxa).mp (List.elem_iff.mp h))
          rw [e1, e2]
      have h2 := ih (pids.erase a) ht
      rw [h1]
      have h3 : (pids.erase a).length = pids.length - 1 := List.length_erase_of_mem hmem
      have h4 : 1 ≤ pids.length := List.length_pos.mpr (fun h => by simp [h] at hmem)
      have h5 : pids.contains a = true := List.elem_iff.mpr hmem
      simp only [h5, if_true]
      omega
    · have h2 := ih pids ht
      have h5 : pids.contains a = false := by
        rw [Bool.eq_false_iff]
        intro h
        exact hmem (List.elem_iff.mp h)
      simp only [h5, Bool.false_eq_true, if_false]
      omega

/-! ## Bitfield encode/decode characterization (claim C6) -/

theorem div8_lt_numBytes {m n : Nat} (h : m < n) : m / 8 < (n + 7) / 8 := by
  omega

/-- After running the packing loop of `get_bitfield_bytes` over the first `m`
indices, the accumulator has the right length and bit `b` of byte `j` is set
exactly when the already-processed piece `8*j + (7-b)` is held. -/
theorem enc_foldl_invariant (bitfield : List Nat) (m : Nat) (hm : m ≤ bitfield.length) :
    ((List.range m).foldl (encStep bitfield)
        (List.replicate ((bitfield.length + 7) / 8) 0)).length
      = (bitfield.length + 7) / 8 ∧
    ∀ j b, b < 8 →
      (((List.range m).foldl (encStep bitfield)
          (List.replicate ((bitfield.length + 7) / 8) 0)).getD j 0).testBit b
        = (decide (8 * j + (7 - b) < m) && (bitfield.getD (8 * j + (7 - b)) 0 == 1)) := by
  induction m with
  | zero =>
    constructor
    · simp
    · intro j b _
      simp [getD_replicate_zero, Nat.zero_testBit]
  | succ m ih =>
    have hm' : m ≤ bitfield.length := Nat.le_of_succ_le hm
    obtain ⟨ihlen, ihbit⟩ := ih hm'
    rw [List.range_succ, List.foldl_append]
    simp only [List.foldl_cons, List.foldl_nil]
    set prev := (List.range m).foldl (encStep bitfield)
      (List.replicate ((bitfield.length + 7) / 8) 0) with hprev
    have hdiv : m / 8 < (bitfield.length + 7) / 8 :=
      div8_lt_numBytes (Nat.lt_of_succ_le hm)
    unfold encStep
    by_cases hbit : bitfield.getD m 0 = 1
    · simp only [hbit, if_pos rfl, reduceIte]
      refine ⟨by rw [List.length_set, ihlen], ?_⟩
      intro j b hb
      rw [getD_set_eq_ite, ihlen]
      by_cases hj : j = m / 8
      · subst hj
        rw [if_pos ⟨rfl, hdiv⟩]
        rw [Nat.testBit_or, ihbit _ _ hb]
        have h1 : (1 : Nat) <<< (7 - m % 8) = 2 ^ (7 - m % 8) := by
          rw [Nat.shiftLeft_eq, Nat.one_mul]
        rw [h1, Nat.testBit_two_pow]
        by_cases hbm : b = 7 - m % 8
        · subst hbm
          have hidx : 8 * (m / 8) + (7 - (7 - m % 8)) = m := by omega
          rw [hidx, hbit]
          have hd1 : decide (m < m + 1) = true := by
            rw [decide_eq_true_eq]
            exact Nat.lt_succ_self m
          have hd2 : decide (7 - m % 8 = 7 - m % 8) = true := by
            rw [decide_eq_true_eq]
          rw [hd1, hd2]
          simp
        · have hidx : 8 * (m / 8) + (7 - b) ≠ m := by omega
          have hlt : decide (8 * (m / 8) + (7 - b) < m + 1)
              = decide (8 * (m / 8) + (7 - b) < m) := by
            rw [decide_eq_decide]
            omega
          have hne : decide (7 - m % 8 = b) = false := by
            rw [decide_eq_false_iff_not]
            omega
          rw [hlt, hne, Bool.or_false]
      · rw [if_neg (fun h => hj h.1), ihbit _ _ hb]
        have hlt : decide (8 * j + (7 - b) < m + 1) = decide (8 * j + (7 - b) < m) := by
          rw [decide_eq_decide]
          omega
        rw [hlt]
    · simp only [hbit, if_false, reduceIte]
      refine ⟨ihlen, ?_⟩
      intro j b hb
      rw [ihbit _ _ hb]
      by_cases hidx : 8 * j + (7 - b) = m
      · rw [hidx]
        have hne : ((bitfield.getD m 0) == 1) = false := by
          rw [beq_eq_false_iff_ne]
          exact hbit
        rw [hne, Bool.and_false, Bool.and_false]
      · have hlt : decide (8 * j + (7 - b) < m + 1) = decide (8 * j + (7 - b) < m) := by
          rw [decide_eq_decide]
          omega
        rw [hlt]

/-- After running the parsing loop of `update_bitfield_from_bytes` over the
first `m` indices, entry `i` of the accumulator is `1` exactly when `i` has
been processed and the corresponding payload bit is set, and `0` otherwise. -/
theorem dec_foldl_invariant (bf_data : List Nat) (num_pieces m : Nat) (hm : m ≤ num_pieces) :
    ((List.range m).foldl (decStep bf_data) (List.replicate num_pieces 0)).length
      = num_pieces ∧
    ∀ i, ((List.range m).foldl (decStep bf_data) (List.replicate num_pieces 0)).getD i 0
        = if i < m ∧ i / 8 < bf_data.length ∧
              (bf_data.getD (i / 8) 0 >>> (7 - i % 8)) &&& 1 = 1
          then 1 else 0 := by
  induction m with
  | zero =>
    constructor
    · simp
    · intro i
      simp [getD_replicate_zero]
  | succ m ih =>
    have hm' : m ≤ num_pieces := Nat.le_of_succ_le hm
    obtain ⟨ihlen, ihval⟩ := ih hm'
    rw [List.range_succ, List.foldl_append]
    simp only [List.foldl_cons, List.foldl_nil]
    set prev := (List.range m).foldl (decStep bf_data) (List.replicate num_pieces 0)
      with hprev
    unfold decStep
    by_cases hblen : m / 8 < bf_data.length
    · by_cases hbit : (bf_data.getD (m / 8) 0 >>> (7 - m % 8)) &&& 1 = 1
      · simp only [hblen, hbit, if_pos rfl, reduceIte]
        refine ⟨by rw [List.length_set, ihlen], ?_⟩
        intro i
        rw [getD_set_eq_ite, ihlen]
        by_cases hi : i = m
        · subst hi
          rw [if_pos ⟨rfl, Nat.lt_of_succ_le hm⟩,
            if_pos ⟨Nat.lt_succ_self i, hblen, hbit⟩]
        · rw [if_neg (fun h => hi h.1), ihval i]
          exact if_congr (and_congr_left' (by omega)) rfl rfl
      · simp only [hblen, hbit, reduceIte]
        refine ⟨ihlen, ?_⟩
        intro i
        rw [ihval i]
        by_cases hi : i = m
        · subst hi
          rw [if_neg (fun h => Nat.lt_irrefl i h.1),
            if_neg (fun h => hbit h.2.2)]
        · exact if_congr (and_congr_left' (by omega)) rfl rfl
    · simp only [hblen, reduceIte]
      refine ⟨ihlen, ?_⟩
      intro i
      rw [ihval i]
      by_cases hi : i = m
      · subst hi
        rw [if_neg (fun h => Nat.lt_irrefl i h.1),
          if_neg (fun h => hblen h.2.1)]
      · exact if_congr (and_congr_left' (by omega)) rfl rfl

theorem bit_extract_iff (x k : Nat) : ((x >>> k) &&& 1 = 1) ↔ x.testBit k = true := by
  rw [Nat.shiftRight_eq_div_pow, Nat.and_one_is_mod, Nat.testBit_to_div_mod,
    decide_eq_true_eq]

/-- Claim C6: for every bitmap of length `num_pieces` with entries in 0/1,
decoding the encoded byte representation yields the bitmap exactly
(`update_bitfield_from_bytes (get_bitfield_bytes B) B.length = B`), piece `i`
is stored as bit `7 - i % 8` of byte `i / 8`, and all trailing bits beyond
`num_pieces` are zero. -/
theorem C6_bitfield_roundtrip (bitfield : List Nat)
    (h01 : ∀ x ∈ bitfield, x = 0 ∨ x = 1) :
    update_bitfield_from_bytes (get_bitfield_bytes bitfield) bitfield.length
      = bitfield ∧
    (∀ i, i < bitfield.length →
      ((get_bitfield_bytes bitfield).getD (i / 8) 0).testBit (7 - i % 8)
        = (bitfield.getD i 0 == 1)) ∧
    (∀ j b, b < 8 → bitfield.length ≤ 8 * j + (7 - b) →
      ((get_bitfield_bytes bitfield).getD j 0).testBit b = false) := by
  obtain ⟨elen, ebit⟩ := enc_foldl_invariant bitfield bitfield.length (Nat.le_refl _)
  have hencdef : get_bitfield_bytes bitfield
      = (List.range bitfield.length).foldl (encStep bitfield)
          (List.replicate ((bitfield.length + 7) / 8) 0) := rfl
  rw [← hencdef] at elen ebit
  obtain ⟨dlen, dval⟩ := dec_foldl_invariant (get_bitfield_bytes bitfield)
    bitfield.length bitfield.length (Nat.le_refl _)
  have hdecdef : update_bitfield_from_bytes (get_bitfield_bytes bitfield) bitfield.length
      = (List.range bitfield.length).foldl (decStep (get_bitfield_bytes bitfield))
          (List.replicate bitfield.length 0) := rfl
  rw [← hdecdef] at dlen dval
  have hlay : ∀ i, i < bitfield.length →
      ((get_bitfield_bytes bitfield).getD (i / 8) 0).testBit (7 - i % 8)
        = (bitfield.getD i 0 == 1) := by
    intro i hi
    have h := ebit (i / 8) (7 - i % 8) (by omega)
    have hidx : 8 * (i / 8) + (7 - (7 - i % 8)) = i := by omega
    rw [hidx] at h
    rw [h]
    have hd : decide (i < bitfield.length) = true := by
      rw [decide_eq_true_eq]
      exact hi
    rw [hd, Bool.true_and]
  refine ⟨?_, hlay, ?_⟩
  · apply List.ext_getElem
    · rw [dlen]
    · intro i h1 h2
      rw [← List.getD_eq_getElem _ 0 h1, ← List.getD_eq_getElem _ 0 h2, dval i]
      have hval : bitfield.getD i 0 = bitfield[i] := List.getD_eq_getElem _ 0 h2
      rcases h01 bitfield[i] (List.getElem_mem h2) with h0 | hone
      · rw [if_neg]
        · rw [hval, h0]
        · rintro ⟨-, -, hext⟩
          have := (bit_extract_iff _ _).mp hext
          rw [hlay i h2, hval, h0] at this
          simp at this
      · rw [if_pos]
        · rw [hval, hone]
        · refine ⟨h2, ?_, ?_⟩
          · rw [elen]
            exact div8_lt_numBytes h2
          · apply (bit_extract_iff _ _).mpr
            rw [hlay i h2, hval, hone]
            rfl
  · intro j b hb hge
    have h := ebit j b hb
    rw [h]
    have hd : decide (8 * j + (7 - b) < bitfield.length) = false := by
      rw [decide_eq_false_iff_not]
      omega
    rw [hd, Bool.false_and]

/-- Witness for C6 at the spec's own example (10 pieces, pieces 0 and 9 held). -/
theorem C6_bitfield_roundtrip_witness :
    update_bitfield_from_bytes (get_bitfield_bytes [1, 0, 0, 0, 0, 0, 0, 0, 0, 1]) 10
      = [1, 0, 0, 0, 0, 0, 0, 0, 0, 1] :=
  (C6_bitfield_roundtrip [1, 0, 0, 0, 0, 0, 0, 0, 0, 1] (by decide)).1


/-! ## Claim C10: send_message error behaviour -/

/-- Claim C10 (amended): whenever the message type fits in one byte and
`1 + len(payload)` fits in four bytes — as is the case for every frame this
program builds — `send_message` returns normally for every transport
outcome, the session state is returned unchanged, and a failed socket write
silently drops the frame.  (As stated, the claim is false for out-of-range
inputs: the header is packed outside the `try` block, see the
counterexample.) -/
theorem C10_send_message_no_raise (conn : PConn) (msg_type : Nat)
    (payload : List Nat) (sendOk : Bool)
    (htype : msg_type < 256) (hlen : 1 + payload.length < 2 ^ 32) :
    send_message conn msg_type payload sendOk
      = .ok (conn,
          if sendOk then
            some ((pack_u32 (1 + payload.length)).getD [] ++
              (pack_u8 msg_type).getD [] ++ payload)
          else none) := by
  unfold send_message pack_u32 pack_u8
  dsimp only
  rw [if_pos hlen, if_pos htype]
  rfl

/-- Witness for C10: a HAVE frame whose socket write fails is dropped and
the session is returned unchanged. -/
theorem C10_send_message_no_raise_witness :
    send_message dummyConn MSG_HAVE [0, 0, 0, 5] false = .ok (dummyConn, none) :=
  C10_send_message_no_raise dummyConn MSG_HAVE [0, 0, 0, 5] false
    (by decide) (by decide)

/-- Counterexample for C10 as stated: for message type 256 (any type that
does not fit the `B` format) `struct.pack` raises before the `try` block, so
`send_message` does raise to its caller. -/
theorem C10_counterexample :
    send_message dummyConn 256 [] true
      = .error "struct error: argument out of range" := by
  rfl

/-! ## Claim C7: the HAVE handler -/

/-- Claim C7 (amended): on HAVE(i) the handler sets bit `i` of the observed
neighbor bitmap and sends INTERESTED (setting `am_interested`) exactly when
the local store lacks piece `i` — regardless of the current value of
`am_interested`, so a redundant INTERESTED may be sent; when the local
store has piece `i`, nothing is sent and `am_interested` is unchanged. -/
theorem C7_have_handler (self_bitfield : List Nat) (conn : PConn) (i : Nat) :
    ((process_have self_bitfield conn i).1.neighbor_bitfield
        = conn.neighbor_bitfield.set i 1) ∧
    ((process_have self_bitfield conn i).2
        = if self_bitfield.getD i 0 = 1 then [] else [MSG_INTERESTED]) ∧
    ((process_have self_bitfield conn i).1.am_interested
        = if self_bitfield.getD i 0 = 1 then conn.am_interested else true) := by
  unfold process_have
  by_cases h : self_bitfield.getD i 0 = 1
  · have hc : (!(self_bitfield.getD i 0 == 1)) = false := by
      rw [h]
      rfl
    rw [hc]
    refine ⟨rfl, ?_, ?_⟩ <;> (rw [if_pos h]; rfl)
  · have hc : (!(self_bitfield.getD i 0 == 1)) = true := by
      have hb : (self_bitfield.getD i 0 == 1) = false := by
        rw [beq_eq_false_iff_ne]
        exact h
      rw [hb]
      rfl
    rw [hc]
    refine ⟨rfl, ?_, ?_⟩ <;> (rw [if_neg h]; rfl)

/-- Witness for C7: a HAVE for a missing piece triggers INTERESTED. -/
theorem C7_have_handler_witness :
    (process_have [0] dummyConn 0).2 = [MSG_INTERESTED] := by
  have h := (C7_have_handler [0] dummyConn 0).2.1
  simpa using h

/-- Counterexample for C7 as stated: the session is already interested
(`am_interested = true`) and the piece is missing locally, yet the handler
sends INTERESTED again — the claim says no INTERESTED is sent in this
case. -/
theorem C7_counterexample :
    connI.am_interested = true ∧ (process_have [0, 0] connI 0).2 ≠ [] := by
  decide

/-! ## Claim C3: bitmap monotonicity -/

/-- Claim C3 (amended): a set bit of the local bitmap survives every
`write_piece`, and a set bit of an observed neighbor bitmap survives every
HAVE; BITFIELD processing, however, REPLACES the observed bitmap with the
decoded payload wholesale (so it preserves set bits only when no BITFIELD
arrives after a bit was observed — in particular on the protocol's normal
single-BITFIELD-first traces). -/
theorem C3_bitmap_monotone (fm : FileManager) (i j : Nat) (data : List Nat)
    (ok : Bool) (conn : PConn) (sb payload : List Nat) (np : Nat) :
    (fm.bitfield.getD j 0 = 1 →
      (write_piece fm i data ok).1.bitfield.getD j 0 = 1) ∧
    (conn.neighbor_bitfield.getD j 0 = 1 →
      (process_have sb conn i).1.neighbor_bitfield.getD j 0 = 1) ∧
    ((process_bitfield sb np conn payload).1.neighbor_bitfield
      = update_bitfield_from_bytes payload np) := by
  refine ⟨?_, ?_, ?_⟩
  · intro hj
    cases ok with
    | false => simpa [write_piece] using hj
    | true =>
      simp only [write_piece, if_pos]
      rw [getD_set_eq_ite]
      by_cases hcase : j = i ∧ j < fm.bitfield.length
      · rw [if_pos hcase]
      · rw [if_neg hcase]
        exact hj
  · intro hj
    have hbf : (process_have sb conn i).1.neighbor_bitfield
        = conn.neighbor_bitfield.set i 1 := (C7_have_handler sb conn i).1
    rw [hbf, getD_set_eq_ite]
    by_cases hcase : j = i ∧ j < conn.neighbor_bitfield.length
    · rw [if_pos hcase]
    · rw [if_neg hcase]
      exact hj
  · unfold process_bitfield
    dsimp only
    split <;> rfl

/-- Witness for C3: a held bit survives a write of another piece, and an
observed bit survives a HAVE for another piece. -/
theorem C3_bitmap_monotone_witness :
    (write_piece fmC3 1 [5] true).1.bitfield.getD 0 0 = 1 ∧
    (process_have [1, 0] connNB 0).1.neighbor_bitfield.getD 0 0 = 1 :=
  ⟨(C3_bitmap_monotone fmC3 1 0 [5] true connNB [1, 0] [] 1).1 (by decide),
   (C3_bitmap_monotone fmC3 1 0 [5] true connNB [1, 0] [] 1).2.1 (by decide)⟩

/-- Counterexample for C3 as stated: a neighbor bitmap bit observed set via
HAVE returns to 0 when a subsequent BITFIELD message with a zero payload is
processed. -/
theorem C3_counterexample :
    connNB.neighbor_bitfield.getD 0 0 = 1 ∧
    (process_bitfield [0] 1 connNB [0]).1.neighbor_bitfield.getD 0 0 = 0 := by
  decide

/-! ## Claim C9: transport error on an established session -/

/-- Claim C9 (amended): when a session's receive loop dies with a transport
error, the exception is swallowed and the session's socket is closed, the
`running` flag and every other session are untouched — but the session is
NOT removed from the registry: the registry keeps an entry under the
neighbor's identifier. -/
theorem C9_handler_error_behaviour (st : PeerSt) (nid : Nat) :
    (message_handler_on_error st nid).running = st.running ∧
    ((message_handler_on_error st nid).conns.map (fun c => c.neighbor_id)
      = st.conns.map (fun c => c.neighbor_id)) ∧
    (∀ c ∈ st.conns, c.neighbor_id ≠ nid →
      c ∈ (message_handler_on_error st nid).conns) ∧
    (∀ c ∈ (message_handler_on_error st nid).conns, c.neighbor_id = nid →
      c.socketOpen = false) := by
  refine ⟨rfl, ?_, ?_, ?_⟩
  · unfold message_handler_on_error
    simp only [List.map_map]
    apply List.map_congr_left
    intro c _
    by_cases h : c.neighbor_id = nid
    · simp [h]
    · simp [h]
  · intro c hc hne
    unfold message_handler_on_error
    simp only [List.mem_map]
    refine ⟨c, hc, ?_⟩
    have h : (c.neighbor_id == nid) = false := by
      rw [beq_eq_false_iff_ne]
      exact hne
    rw [h]
    simp
  · intro c hc heq
    unfold message_handler_on_error at hc
    simp only [List.mem_map] at hc
    obtain ⟨a, _, ha⟩ := hc
    by_cases h : a.neighbor_id = nid
    · have hb : (a.neighbor_id == nid) = true := by
        rw [beq_iff_eq]
        exact h
      rw [hb] at ha
      simp at ha
      rw [← ha]
    · have hb : (a.neighbor_id == nid) = false := by
        rw [beq_eq_false_iff_ne]
        exact h
      rw [hb] at ha
      simp at ha
      rw [← ha] at heq
      exact absurd heq h

/-- Witness for C9: a surviving session with a different id stays in the
registry untouched. -/
theorem C9_handler_error_behaviour_witness :
    ({ neighbor_id := 7 } : PConn) ∈ (message_handler_on_error st7 9).conns :=
  (C9_handler_error_behaviour st7 9).2.2.1 { neighbor_id := 7 } (by decide)
    (by decide)

/-- Counterexample for C9 as stated: after a transport error on the session
with neighbor id 7 the registry STILL contains an entry for id 7 — the
session is closed but never removed. -/
theorem C9_counterexample :
    7 ∈ (message_handler_on_error st7 7).conns.map (fun c => c.neighbor_id) := by
  decide

/-! ## Claim C8: last-piece length -/

theorem last_len_arith {F S : Nat} (hS : 0 < S) (hnd : ¬ S ∣ F) :
    ((F + S - 1) / S - 1) * S + F % S = F ∧ 0 < F % S ∧ F % S < S := by
  have hq : S * (F / S) + F % S = F := Nat.div_add_mod F S
  have hrS : F % S < S := Nat.mod_lt _ hS
  have hr0 : F % S ≠ 0 := fun h => hnd (Nat.dvd_iff_mod_eq_zero.mpr h)
  obtain ⟨R, hR⟩ : ∃ R, F % S = R := ⟨_, rfl⟩
  rw [hR] at hq hrS hr0 ⊢
  obtain ⟨T, hT⟩ : ∃ T, S * (F / S) = T := ⟨_, rfl⟩
  rw [hT] at hq
  have hmul1 : (F / S + 1) * S = T + S := by
    rw [← hT]
    ring
  have hmul2 : (F / S + 1 + 1) * S = T + S + S := by
    rw [← hT]
    ring
  have hnq : (F + S - 1) / S = F / S + 1 := by
    apply Nat.div_eq_of_lt_le
    · rw [hmul1]
      omega
    · rw [hmul2]
      omega
  have h3 : (F / S + 1 - 1) * S = T := by
    have he : F / S + 1 - 1 = F / S := by simp
    rw [he, ← hT]
    ring
  refine ⟨?_, by omega, hrS⟩
  rw [hnq, h3]
  omega

theorem writeAt_exact (file data : List Nat) (offset : Nat)
    (hoffle : offset ≤ file.length) (hend : offset + data.length = file.length) :
    (writeAt file offset data).length = file.length ∧
    (writeAt file offset data).drop offset = data ∧
    (writeAt file offset data).take offset = file.take offset := by
  unfold writeAt
  have hrep : List.replicate (offset - file.length) (0 : Nat) = [] := by
    have h0 : offset - file.length = 0 := by omega
    rw [h0]
    rfl
  have hdrop : file.drop (offset + data.length) = [] :=
    List.drop_eq_nil_of_le (by omega)
  rw [hrep, hdrop, List.append_nil, List.append_nil]
  have htl : (file.take offset).length = offset := by
    rw [List.length_take]
    omega
  refine ⟨?_, List.drop_left' htl, List.take_left' htl⟩
  rw [List.length_append, htl]
  omega

/-- Claim C8: when `file_size` is not a multiple of `piece_size`, the last
piece index `num_pieces - 1` has length
`file_size - (num_pieces - 1) * piece_size` (strictly between 0 and
`piece_size`), a successful read of that index returns exactly that many
bytes, and a successful write of that index persists exactly those bytes at
exactly that offset, leaving the prefix of the file and its total length
unchanged. -/
theorem C8_last_piece (fm : FileManager) (hS : 0 < fm.piece_size)
    (hnd : ¬ fm.piece_size ∣ fm.file_size)
    (hfile : fm.file.length = fm.file_size)
    (hbit : fm.has_piece (fm.num_pieces - 1) = true)
    (data : List Nat)
    (hdata : data.length = fm.file_size - (fm.num_pieces - 1) * fm.piece_size) :
    0 < fm.file_size - (fm.num_pieces - 1) * fm.piece_size ∧
    fm.file_size - (fm.num_pieces - 1) * fm.piece_size < fm.piece_size ∧
    (∃ l, read_piece fm (fm.num_pieces - 1) true = some l ∧
      l.length = fm.file_size - (fm.num_pieces - 1) * fm.piece_size) ∧
    (write_piece fm (fm.num_pieces - 1) data true).1.file.length = fm.file_size ∧
    ((write_piece fm (fm.num_pieces - 1) data true).1.file.drop
      ((fm.num_pieces - 1) * fm.piece_size) = data) ∧
    ((write_piece fm (fm.num_pieces - 1) data true).1.file.take
      ((fm.num_pieces - 1) * fm.piece_size)
      = fm.file.take ((fm.num_pieces - 1) * fm.piece_size)) := by
  obtain ⟨hkey, hpos, hlt⟩ := last_len_arith hS hnd
  have hnum : fm.num_pieces = (fm.file_size + fm.piece_size - 1) / fm.piece_size :=
    rfl
  have hoffle : (fm.num_pieces - 1) * fm.piece_size ≤ fm.file_size := by
    rw [hnum]
    omega
  have hlast : fm.file_size - (fm.num_pieces - 1) * fm.piece_size
      = fm.file_size % fm.piece_size := by
    rw [hnum]
    omega
  have hend : (fm.num_pieces - 1) * fm.piece_size + data.length
      = fm.file.length := by
    rw [hfile, hdata, hlast, hnum]
    omega
  obtain ⟨wlen, wdrop, wtake⟩ :=
    writeAt_exact fm.file data ((fm.num_pieces - 1) * fm.piece_size)
      (by rw [hfile]; exact hoffle) hend
  have hwrite : (write_piece fm (fm.num_pieces - 1) data true).1.file
      = writeAt fm.file ((fm.num_pieces - 1) * fm.piece_size) data := by
    unfold write_piece
    rw [if_pos rfl]
  refine ⟨by omega, by omega, ?_, ?_, ?_, ?_⟩
  · refine ⟨(fm.file.drop ((fm.num_pieces - 1) * fm.piece_size)).take
      (min fm.piece_size
        (fm.file_size - (fm.num_pieces - 1) * fm.piece_size)), ?_, ?_⟩
    · unfold read_piece
      rw [hbit]
      rfl
    · rw [List.length_take, List.length_drop, hfile]
      omega
  · rw [hwrite, wlen, hfile]
  · rw [hwrite, wdrop]
  · rw [hwrite, wtake]

/-- Witness for C8: a 10-byte file with 4-byte pieces has a 2-byte last
piece, and reading piece 2 of the seeder returns exactly 2 bytes. -/
theorem C8_last_piece_witness :
    (∃ l, read_piece fmC8 (fmC8.num_pieces - 1) true = some l ∧
      l.length = fmC8.file_size - (fmC8.num_pieces - 1) * fmC8.piece_size) :=
  (C8_last_piece fmC8 (by decide) (by decide) (by decide) (by decide)
    [100, 101] (by decide)).2.2.1

/-! ## Claim C5: termination detector -/

/-- Claim C5 (amended): at a 2-second poll the process exits only when the
local bitfield is complete, every connected session's observed neighbor
bitmap sums to `num_pieces`, and the session count equals the membership
size minus one; the neighbor-bitmap scan happens while the registry lock is
held, but the session-count comparison happens AFTER the lock is released
(it sits outside the `with` block), contrary to the claim as stated. -/
theorem C5_termination_guard (bitfield : List Nat) (conns : List PConn)
    (np numPeers : Nat) :
    (TEvent.exitProcess ∈ termination_poll bitfield conns np numPeers ↔
      (bitfield.all (fun x => !(x == 0)) = true ∧
       all_neighbors_done conns np = true ∧ conns.length = numPeers - 1)) ∧
    (∀ b, TEvent.checkNeighborsDone b ∈ termination_poll bitfield conns np numPeers →
      TEvent.checkNeighborsDone b
        ∈ between_lock (termination_poll bitfield conns np numPeers)) ∧
    (∀ b, TEvent.checkCount b ∈ termination_poll bitfield conns np numPeers →
      TEvent.checkCount b
        ∉ between_lock (termination_poll bitfield conns np numPeers)) := by
  cases hA : bitfield.all (fun x => !(x == 0)) with
  | false =>
    simp [termination_poll, hA, between_lock]
  | true =>
    cases hD : all_neighbors_done conns np with
    | false =>
      simp [termination_poll, hA, hD, between_lock, isAcquire, isRelease]
    | true =>
      cases hC : conns.length == numPeers - 1 with
      | false =>
        have hC' : ¬ (conns.length = numPeers - 1) := by
          intro h
          rw [h] at hC
          simp at hC
        simp [termination_poll, hA, hD, hC, between_lock, isAcquire, isRelease, hC']
      | true =>
        have hC' : conns.length = numPeers - 1 := by
          rw [← beq_iff_eq]
          exact hC
        simp [termination_poll, hA, hD, hC, between_lock, isAcquire, isRelease, hC']

/-- Witness for C5: in a completed two-peer system the poll emits the
neighbor check under the lock. -/
theorem C5_termination_guard_witness :
    TEvent.checkNeighborsDone true
      ∈ between_lock (termination_poll [1] [connD] 1 2) :=
  (C5_termination_guard [1] [connD] 1 2).2.1 true (by decide)

/-- Counterexample for C5 as stated: at an exiting poll the session-count
check is a completeness check that does NOT happen between lock acquisition
and release. -/
theorem C5_counterexample :
    TEvent.exitProcess ∈ termination_poll [1] [connD] 1 2 ∧
    TEvent.checkCount true ∈ termination_poll [1] [connD] 1 2 ∧
    TEvent.checkCount true ∉ between_lock (termination_poll [1] [connD] 1 2) := by
  decide

/-! ## Claim C4: outstanding requests are disjoint from held pieces -/

theorem not_mem_of_contains_eq_false {l : List Nat} {a : Nat}
    (h : l.contains a = false) : a ∉ l := by
  intro hmem
  have h2 : l.contains a = true := List.elem_iff.mpr hmem
  rw [h2] at h
  exact Bool.noConfusion h

theorem request_piece_spec (fm : FileManager) (nb : List Nat) (r : Nat) :
    ((request_piece fm nb r).1 = fm ∧ (request_piece fm nb r).2 = none) ∨
    ∃ i, (request_piece fm nb r).1
          = { fm with requested_pieces := fm.requested_pieces.insert i } ∧
        (request_piece fm nb r).2 = some i ∧
        fm.has_piece i = false ∧ i ∉ fm.requested_pieces ∧ nb.getD i 0 = 1 := by
  unfold request_piece
  dsimp only
  split
  · exact Or.inl ⟨rfl, rfl⟩
  · rename_i hne
    right
    have hlen : 0 < ((List.range nb.length).filter
        (fun i => nb.getD i 0 == 1 && !(fm.has_piece i)
          && !(fm.requested_pieces.contains i))).length := by
      rw [List.length_pos]
      intro h
      exact hne (List.isEmpty_iff.mpr h)
    have hmod : r % ((List.range nb.length).filter
        (fun i => nb.getD i 0 == 1 && !(fm.has_piece i)
          && !(fm.requested_pieces.contains i))).length
        < ((List.range nb.length).filter
        (fun i => nb.getD i 0 == 1 && !(fm.has_piece i)
          && !(fm.requested_pieces.contains i))).length :=
      Nat.mod_lt _ hlen
    have hget := List.getD_eq_getElem ((List.range nb.length).filter
        (fun i => nb.getD i 0 == 1 && !(fm.has_piece i)
          && !(fm.requested_pieces.contains i))) 0 hmod
    have hmem := List.getElem_mem hmod
    rw [← hget] at hmem
    obtain ⟨-, hpred⟩ := List.mem_filter.mp hmem
    rw [Bool.and_eq_true, Bool.and_eq_true] at hpred
    obtain ⟨⟨hbeq, hnothas⟩, hnotreq⟩ := hpred
    refine ⟨_, rfl, rfl, ?_, ?_, ?_⟩
    · rw [Bool.not_eq_true'] at hnothas
      exact hnothas
    · rw [Bool.not_eq_true'] at hnotreq
      exact not_mem_of_contains_eq_false hnotreq
    · exact beq_iff_eq.mp hbeq

theorem fm_invariant_step {fm fm2 : FileManager} (h : FMStep fm fm2)
    (hinv : fm.requested_pieces.Nodup ∧
      ∀ x ∈ fm.requested_pieces, fm.bitfield.getD x 0 ≠ 1) :
    fm2.requested_pieces.Nodup ∧
      ∀ x ∈ fm2.requested_pieces, fm2.bitfield.getD x 0 ≠ 1 := by
  obtain ⟨hnd, hdisj⟩ := hinv
  cases h with
  | request nb r =>
    rcases request_piece_spec fm nb r with ⟨heq, -⟩ | ⟨i, heq, -, hnothas, hnotmem, -⟩
    · rw [heq]
      exact ⟨hnd, hdisj⟩
    · rw [heq]
      refine ⟨hnd.insert, ?_⟩
      intro x hx
      rcases List.mem_insert_iff.mp hx with hxi | hxold
      · subst hxi
        intro hbit
        unfold FileManager.has_piece at hnothas
        rw [hbit] at hnothas
        simp at hnothas
      · exact hdisj x hxold
  | write i data ok =>
    cases ok with
    | false => exact ⟨hnd, hdisj⟩
    | true =>
      unfold write_piece
      rw [if_pos rfl]
      refine ⟨hnd.erase i, ?_⟩
      intro x hx
      have hxne : x ≠ i ∧ x ∈ fm.requested_pieces :=
        (List.Nodup.mem_erase_iff hnd).mp hx
      rw [getD_set_eq_ite]
      rw [if_neg (fun hc => hxne.1 hc.1)]
      exact hdisj x hxne.2

/-- Claim C4: in every reachable piece-store state the outstanding-request
set is disjoint from the set of locally held pieces; request selection only
picks indices that are unheld and not already outstanding, and a successful
in-range write of index `i` sets the bit and removes `i` from the request
set in the same step. -/
theorem C4_requested_disjoint_held (F S : Nat) (has_file : Bool)
    (contents : List Nat) (fm : FileManager)
    (h : FMReachable F S has_file contents fm) :
    (∀ i ∈ fm.requested_pieces, fm.bitfield.getD i 0 ≠ 1) ∧
    (∀ nb r i, (request_piece fm nb r).2 = some i →
      fm.has_piece i = false ∧ i ∉ fm.requested_pieces) ∧
    (∀ i data, i < fm.bitfield.length →
      (write_piece fm i data true).1.bitfield.getD i 0 = 1 ∧
      i ∉ (write_piece fm i data true).1.requested_pieces) := by
  have hinv : fm.requested_pieces.Nodup ∧
      ∀ x ∈ fm.requested_pieces, fm.bitfield.getD x 0 ≠ 1 := by
    induction h with
    | refl =>
      constructor
      · exact List.nodup_nil
      · intro x hx
        exact absurd hx (List.not_mem_nil x)
    | tail hsteps hstep ih =>
      exact fm_invariant_step hstep ih
  refine ⟨hinv.2, ?_, ?_⟩
  · intro nb r i hsome
    rcases request_piece_spec fm nb r with ⟨-, hnone⟩ | ⟨j, -, hsome2, hnothas, hnotmem, -⟩
    · rw [hnone] at hsome
      exact Option.noConfusion hsome
    · rw [hsome2] at hsome
      have hij : j = i := Option.some.inj hsome
      subst hij
      exact ⟨hnothas, hnotmem⟩
  · intro i data hi
    constructor
    · unfold write_piece
      rw [if_pos rfl]
      rw [getD_set_eq_ite, if_pos ⟨rfl, hi⟩]
    · unfold write_piece
      rw [if_pos rfl]
      intro hmem
      exact ((List.Nodup.mem_erase_iff hinv.1).mp hmem).1 rfl

/-- Witness for C4: after the initial state requests one piece from a
neighbor that has piece 0 and piece 1, the requested index 0 is still
unheld. -/
theorem C4_requested_disjoint_held_witness :
    (request_piece (initFM 10 4 false []) [1, 1] 0).1.bitfield.getD 0 0 ≠ 1 :=
  (C4_requested_disjoint_held 10 4 false [] _
      (Relation.ReflTransGen.single
        (FMStep.request (initFM 10 4 false []) [1, 1] 0))).1 0 (by decide)

/-! ## Claim C2: preferred-neighbor selection -/

theorem insertDesc_perm (c : PConn) (l : List PConn) :
    (insertDesc c l).Perm (c :: l) := by
  induction l with
  | nil => exact List.Perm.refl _
  | cons d rest ih =>
    unfold insertDesc
    split
    · exact List.Perm.refl _
    · exact List.Perm.trans (List.Perm.cons d ih) (List.Perm.swap c d rest)

theorem insertDesc_sorted (c : PConn) (l : List PConn) (h : SortedDesc l) :
    SortedDesc (insertDesc c l) := by
  induction l with
  | nil =>
    unfold insertDesc SortedDesc
    exact List.sorted_singleton c
  | cons d rest ih =>
    unfold SortedDesc at h ih ⊢
    rw [List.sorted_cons] at h
    obtain ⟨hd, hrest⟩ := h
    unfold insertDesc
    split
    · rename_i hlt
      rw [List.sorted_cons]
      refine ⟨?_, by rw [List.sorted_cons]; exact ⟨hd, hrest⟩⟩
      intro b hb
      rcases List.mem_cons.mp hb with hbd | hbr
      · subst hbd
        exact Nat.le_of_lt hlt
      · exact le_trans (hd b hbr) (Nat.le_of_lt hlt)
    · rename_i hnlt
      rw [List.sorted_cons]
      refine ⟨?_, ih hrest⟩
      intro b hb
      have hb2 := (insertDesc_perm c rest).mem_iff.mp hb
      rcases List.mem_cons.mp hb2 with hbc | hbr
      · subst hbc
        exact Nat.le_of_not_lt hnlt
      · exact hd b hbr

theorem insertDesc_filter (c : PConn) (l : List PConn) (h : SortedDesc l) (v : Nat) :
    (insertDesc c l).filter (fun d => d.downloaded_bytes_interval == v)
      = if c.downloaded_bytes_interval = v
        then l.filter (fun d => d.downloaded_bytes_interval == v) ++ [c]
        else l.filter (fun d => d.downloaded_bytes_interval == v) := by
  induction l with
  | nil =>
    unfold insertDesc
    by_cases hv : c.downloaded_bytes_interval = v
    · rw [if_pos hv]
      simp [hv]
    · rw [if_neg hv]
      simp [hv]
  | cons d rest ih =>
    have hcd := h
    unfold SortedDesc at hcd
    rw [List.sorted_cons] at hcd
    obtain ⟨hd, hrest⟩ := hcd
    unfold insertDesc
    split
    · rename_i hlt
      by_cases hv : c.downloaded_bytes_interval = v
      · rw [if_pos hv]
        have hnil : (d :: rest).filter
            (fun e => e.downloaded_bytes_interval == v) = [] := by
          rw [List.filter_eq_nil_iff]
          intro e he
          have hle : e.downloaded_bytes_interval ≤ d.downloaded_bytes_interval := by
            rcases List.mem_cons.mp he with h1 | h2
            · subst h1
              exact le_refl _
            · exact hd e h2
          have hne : e.downloaded_bytes_interval ≠ v := by omega
          simp [hne]
        rw [hnil, List.nil_append]
        rw [List.filter_cons_of_pos (by simp [hv]), hnil]
      · rw [if_neg hv]
        rw [List.filter_cons_of_neg (by simp [hv])]
    · rename_i hnlt
      have hih := ih hrest
      by_cases hpv : d.downloaded_bytes_interval = v
      · rw [List.filter_cons_of_pos (by simp [hpv]),
          List.filter_cons_of_pos (by simp [hpv]), hih]
        by_cases hv : c.downloaded_bytes_interval = v
        · rw [if_pos hv, if_pos hv, List.cons_append]
        · rw [if_neg hv, if_neg hv]
      · rw [List.filter_cons_of_neg (by simp [hpv]),
          List.filter_cons_of_neg (by simp [hpv]), hih]

theorem sortfold_perm (l : List PConn) :
    ∀ acc, (l.foldl (fun acc c => insertDesc c acc) acc).Perm (acc ++ l) := by
  induction l with
  | nil =>
    intro acc
    simp
  | cons c rest ih =>
    intro acc
    simp only [List.foldl_cons]
    have h1 := ih (insertDesc c acc)
    have h2 : (insertDesc c acc ++ rest).Perm ((c :: acc) ++ rest) :=
      (insertDesc_perm c acc).append_right rest
    have h3 : ((c :: acc) ++ rest).Perm (acc ++ c :: rest) := by
      rw [List.cons_append]
      exact List.perm_middle.symm
    exact (h1.trans h2).trans h3

theorem sortfold_sorted (l : List PConn) :
    ∀ acc, SortedDesc acc →
      SortedDesc (l.foldl (fun acc c => insertDesc c acc) acc) := by
  induction l with
  | nil =>
    intro acc h
    exact h
  | cons c rest ih =>
    intro acc h
    exact ih _ (insertDesc_sorted c acc h)

theorem sortfold_filter (l : List PConn) :
    ∀ acc, SortedDesc acc → ∀ v,
      (l.foldl (fun acc c => insertDesc c acc) acc).filter
          (fun d => d.downloaded_bytes_interval == v)
        = acc.filter (fun d => d.downloaded_bytes_interval == v)
          ++ l.filter (fun d => d.downloaded_bytes_interval == v) := by
  induction l with
  | nil =>
    intro acc h v
    simp
  | cons c rest ih =>
    intro acc h v
    simp only [List.foldl_cons]
    rw [ih _ (insertDesc_sorted c acc h) v, insertDesc_filter c acc h v]
    by_cases hv : c.downloaded_bytes_interval = v
    · rw [if_pos hv, List.filter_cons_of_pos (by simp [hv]), List.append_assoc,
        List.singleton_append]
    · rw [if_neg hv, List.filter_cons_of_neg (by simp [hv])]

/-- The stable descending sort modelling Python's
`sort(key=..., reverse=True)`: the result is a permutation of the input,
descending in `downloaded_bytes_interval`, and stable — elements with any
fixed byte count appear in their original order. -/
theorem sortByRateDesc_spec (l : List PConn) :
    (sortByRateDesc l).Perm l ∧ SortedDesc (sortByRateDesc l) ∧
    ∀ v, (sortByRateDesc l).filter (fun d => d.downloaded_bytes_interval == v)
        = l.filter (fun d => d.downloaded_bytes_interval == v) := by
  refine ⟨?_, ?_, ?_⟩
  · have h := sortfold_perm l []
    rw [List.nil_append] at h
    exact h
  · exact sortfold_sorted l [] (by unfold SortedDesc; exact List.sorted_nil)
  · intro v
    have h := sortfold_filter l [] (by unfold SortedDesc; exact List.sorted_nil) v
    rw [List.filter_nil, List.nil_append] at h
    exact h

/-- Claim C2 (amended): when the local file is complete the preferred set is
the first `k` of the shuffled snapshot (every preferred session belongs to
the snapshot); otherwise it is the first `k` of a STABLE descending sort by
`downloaded_bytes_interval` — ties are kept in snapshot order, no
randomness is involved (the claim's "ties broken uniformly at random" does
not hold, see the counterexample). -/
theorem C2_preferred_selection (interested : List PConn) (k : Nat)
    (shuffled : List PConn) (hperm : shuffled.Perm interested) :
    (select_preferred true shuffled interested k = shuffled.take k ∧
      ∀ c ∈ select_preferred true shuffled interested k, c ∈ interested) ∧
    (select_preferred false shuffled interested k
        = (sortByRateDesc interested).take k ∧
      (sortByRateDesc interested).Perm interested ∧
      SortedDesc (sortByRateDesc interested) ∧
      ∀ v, (sortByRateDesc interested).filter
          (fun d => d.downloaded_bytes_interval == v)
        = interested.filter (fun d => d.downloaded_bytes_interval == v)) := by
  obtain ⟨hp, hs, hf⟩ := sortByRateDesc_spec interested
  refine ⟨⟨rfl, ?_⟩, rfl, hp, hs, hf⟩
  intro c hc
  unfold select_preferred at hc
  rw [if_pos rfl] at hc
  exact hperm.subset (List.mem_of_mem_take hc)

/-- Witness for C2: with a complete file and snapshot of two tied sessions,
the selection keeps sessions of the snapshot. -/
theorem C2_preferred_selection_witness :
    select_preferred false [connZ, connY] [connY, connZ] 1
      = (sortByRateDesc [connY, connZ]).take 1 :=
  (C2_preferred_selection [connY, connZ] 1 [connZ, connY]
    (by decide)).2.1

/-- Counterexample for C2 as stated: with two interested sessions tied at
500 bytes and k = 1, the spec's random tie-breaking makes `[connZ]` a
possible preferred set (probability 1/2), but the code's selection (which
takes no randomness in this branch) always returns `[connY]`. -/
theorem C2_counterexample :
    spec_preferred_possible [connY, connZ] 1 [connZ] ∧
    select_preferred false [] [connY, connZ] 1 = [connY] ∧
    ([connY] : List PConn) ≠ [connZ] := by
  refine ⟨⟨[connZ, connY], List.Perm.swap connY connZ [], ?_, rfl⟩, ?_, ?_⟩
  · unfold SortedDesc
    decide
  · decide
  · decide

/-! ## Claim C1: at most k+1 unchoked sessions -/

theorem choking_apply_unchoked_le (pids : List Nat) (st : List PConn)
    (hnd : (st.map (fun c => c.neighbor_id)).Nodup)
    (hopt : countOptimistic st ≤ 1) :
    countUnchoked (st.map (fun c =>
      if pids.contains c.neighbor_id then
        { c with am_choking := false, downloaded_bytes_interval := 0 }
      else if !c.am_choking && !c.is_optimistic then
        { c with am_choking := true, downloaded_bytes_interval := 0 }
      else { c with downloaded_bytes_interval := 0 })) ≤ pids.length + 1 := by
  unfold countUnchoked
  rw [List.countP_map]
  have hpoint : st.countP ((fun c => !c.am_choking) ∘ (fun c =>
      if pids.contains c.neighbor_id then
        { c with am_choking := false, downloaded_bytes_interval := 0 }
      else if !c.am_choking && !c.is_optimistic then
        { c with am_choking := true, downloaded_bytes_interval := 0 }
      else { c with downloaded_bytes_interval := 0 }))
      = st.countP (fun c =>
          pids.contains c.neighbor_id || (!c.am_choking && c.is_optimistic)) := by
    apply List.countP_congr
    intro c _
    simp only [Function.comp_apply]
    cases h1 : pids.contains c.neighbor_id <;>
      cases h2 : c.am_choking <;>
      cases h3 : c.is_optimistic <;>
      simp [h1, h2, h3]
  rw [hpoint]
  calc st.countP (fun c =>
        pids.contains c.neighbor_id || (!c.am_choking && c.is_optimistic))
      ≤ st.countP (fun c => pids.contains c.neighbor_id)
        + st.countP (fun c => !c.am_choking && c.is_optimistic) :=
        countP_or_le _ _ st
    _ ≤ pids.length + 1 := by
        apply Nat.add_le_add
        · have h4 : st.countP (fun c => pids.contains c.neighbor_id)
              = (st.map (fun c => c.neighbor_id)).countP
                  (fun i => pids.contains i) := by
            rw [List.countP_map]
            rfl
          rw [h4]
          exact countP_mem_le_length _ pids hnd
        · apply le_trans _ hopt
          unfold countOptimistic
          apply List.countP_mono_left
          intro c _ hc
          rw [Bool.and_eq_true] at hc
          exact hc.2

theorem choking_cycle_unchoked_le (k : Nat) (has_all : Bool)
    (sh : List PConn → List PConn) (st : List PConn)
    (hnd : (st.map (fun c => c.neighbor_id)).Nodup)
    (hopt : countOptimistic st ≤ 1)
    (hi : (st.filter (fun c => c.peer_interested)).isEmpty = false) :
    countUnchoked (choking_cycle k has_all sh st) ≤ k + 1 := by
  unfold choking_cycle
  dsimp only
  rw [hi]
  simp only [Bool.false_eq_true, if_false]
  have hlen : ((select_preferred has_all
      (sh (st.filter (fun c => c.peer_interested)))
      (st.filter (fun c => c.peer_interested)) k).map
        (fun c => c.neighbor_id)).length ≤ k := by
    rw [List.length_map]
    unfold select_preferred
    cases has_all
    · simp only [Bool.false_eq_true, if_false]
      exact List.length_take_le _ _
    · simp only [if_true]
      exact List.length_take_le _ _
  exact le_trans (choking_apply_unchoked_le _ st hnd hopt)
    (Nat.add_le_add_right hlen 1)

theorem choking_cycle_optimistic_eq (k : Nat) (has_all : Bool)
    (sh : List PConn → List PConn) (st : List PConn) :
    countOptimistic (choking_cycle k has_all sh st) = countOptimistic st := by
  unfold choking_cycle countOptimistic
  dsimp only
  split
  · rfl
  · rw [List.countP_map]
    apply List.countP_congr
    intro c _
    simp only [Function.comp_apply]
    split
    · rfl
    · split <;> rfl

theorem optimistic_apply_le_one (chosen : PConn) (st : List PConn)
    (hnd : (st.map (fun c => c.neighbor_id)).Nodup) :
    countOptimistic (st.map (fun c =>
      if c.neighbor_id == chosen.neighbor_id then
        { c with is_optimistic := true, am_choking := false }
      else { c with is_optimistic := false })) ≤ 1 := by
  unfold countOptimistic
  rw [List.countP_map]
  have hpoint : st.countP ((fun c => c.is_optimistic) ∘ (fun c =>
      if c.neighbor_id == chosen.neighbor_id then
        { c with is_optimistic := true, am_choking := false }
      else { c with is_optimistic := false }))
      = st.countP (fun c => c.neighbor_id == chosen.neighbor_id) := by
    apply List.countP_congr
    intro c _
    simp only [Function.comp_apply]
    split
    · rename_i h
      rw [h]
    · rename_i h
      rw [Bool.not_eq_true] at h
      rw [h]
  rw [hpoint]
  have h2 : st.countP (fun c => c.neighbor_id == chosen.neighbor_id)
      = (st.map (fun c => c.neighbor_id)).count chosen.neighbor_id := by
    rw [List.count_eq_countP, List.countP_map]
    rfl
  rw [h2]
  exact List.nodup_iff_count_le_one.mp hnd _

theorem optimistic_cycle_optimistic_le_one (r : Nat) (st : List PConn)
    (hnd : (st.map (fun c => c.neighbor_id)).Nodup)
    (hopt : countOptimistic st ≤ 1) :
    countOptimistic (optimistic_cycle r st) ≤ 1 := by
  unfold optimistic_cycle
  dsimp only
  split
  · exact hopt
  · exact optimistic_apply_le_one _ st hnd

/-- Claim C1 (amended): with distinct neighbor ids and at most one session
marked optimistic, every preferred-neighbor cycle over a non-empty
interested snapshot leaves at most k + 1 sessions unchoked; the
preferred-neighbor cycle preserves the optimistic-mark count and the
optimistic-unchoke cycle restores it to at most one.  The bound itself is
NOT preserved by optimistic-unchoke cycles (see the counterexample): the
previously optimistic session stays unchoked when a new one is chosen, so
the unchoked count can exceed k + 1 until the next preferred-neighbor
cycle. -/
theorem C1_unchoked_bound (k : Nat) (has_all : Bool)
    (sh : List PConn → List PConn) (r : Nat) (st : List PConn)
    (hnd : (st.map (fun c => c.neighbor_id)).Nodup)
    (hopt : countOptimistic st ≤ 1) :
    ((st.filter (fun c => c.peer_interested)).isEmpty = false →
      countUnchoked (choking_cycle k has_all sh st) ≤ k + 1) ∧
    countOptimistic (choking_cycle k has_all sh st) = countOptimistic st ∧
    countOptimistic (optimistic_cycle r st) ≤ 1 :=
  ⟨fun hi => choking_cycle_unchoked_le k has_all sh st hnd hopt hi,
   choking_cycle_optimistic_eq k has_all sh st,
   optimistic_cycle_optimistic_le_one r st hnd hopt⟩

/-- Witness for C1: one interested neighbor, k = 1. -/
theorem C1_unchoked_bound_witness :
    countUnchoked (choking_cycle 1 false (fun l => l) [connA]) ≤ 1 + 1 :=
  (C1_unchoked_bound 1 false (fun l => l) 0 [connA] (by decide) (by decide)).1
    (by decide)

/-- Counterexample for C1 as stated: with k = 1, the state `st2C1` — reached
from an all-choked, all-interested three-session registry by one
optimistic-unchoke cycle followed by one preferred-neighbor cycle — has 2
unchoked sessions (within the k + 1 bound) and one optimistic mark, yet the
next optimistic-unchoke cycle produces 3 unchoked sessions, exceeding
k + 1 = 2: the invariant is not preserved by optimistic-unchoke cycles. -/
theorem C1_counterexample :
    countUnchoked st2C1 = 2 ∧ countOptimistic st2C1 = 1 ∧
    countUnchoked (optimistic_cycle 0 st2C1) = 3 := by
  decide

end P2P
